import Mathlib

/-!
Verification of the TS-Library collection / scalar utility module.

The source attaches its operations to the built-in runtime types
(`Array.prototype`, `String.prototype`, `Number.prototype`) and defines a
`HashMap` class over a plain object record.  Here each operation is embedded
shallowly:

* a JS array of `T` becomes `List T`;
* a JS string becomes `List Char` (`JsString`);
* a JS number argument becomes `ℚ` where the code tests `Number.isInteger`
  on it (so that zero, negative and non-integer inputs are all expressible),
  and `ℤ` where only integral values are at stake;
* in-place mutation (`Array.prototype.remove`, `HashMap`) becomes explicit
  result-state passing.
-/

namespace TsLib

/-- A JS string, embedded as its list of characters. -/
abbrev JsString := List Char

/-- `Number.isInteger(value)`: true iff the number is a finite value whose
floor equals itself.  On the rational embedding of JS numbers this is
exactly "denominator 1". -/
def isInteger (value : ℚ) : Bool :=
  value.den == 1

/-- `Array.prototype.drop`:
`if(count < 1 || !Number.isInteger(count)) return []; return this.slice(count)`. -/
def drop (l : List α) (count : ℚ) : List α :=
  if count < 1 ∨ ¬ isInteger count then []
  else l.drop count.num.toNat

/-- `Array.prototype.take`:
`if(count < 1 || !Number.isInteger(count)) return []; return this.slice(0, count)`. -/
def take (l : List α) (count : ℚ) : List α :=
  if count < 1 ∨ ¬ isInteger count then []
  else l.take count.num.toNat

/-- `Array.prototype.partition`: one pass over the array, pushing each
element onto `first` when the predicate holds and onto `second` otherwise.
The pair `(first, second)` is returned. -/
def partition (l : List α) (logic : α → Bool) : List α × List α :=
  match l with
  | [] => ([], [])
  | a :: rest =>
      let r := partition rest logic
      if logic a then (a :: r.1, r.2) else (r.1, a :: r.2)

/-- Instrumented form of `Array.prototype.partition` that additionally counts
how many times the loop body invokes `logic`: exactly one invocation per
element visited. -/
def partitionCalls (l : List α) (logic : α → Bool) : (List α × List α) × ℕ :=
  match l with
  | [] => (([], []), 0)
  | a :: rest =>
      let r := partitionCalls rest logic
      (if logic a then (a :: r.1.1, r.1.2) else (r.1.1, a :: r.1.2), r.2 + 1)

/-- JS `Array.prototype.indexOf`: index of the first occurrence of the value,
`-1` when absent. -/
def jsIndexOf [DecidableEq α] (l : List α) (object : α) : ℤ :=
  if object ∈ l then (l.indexOf object : ℤ) else -1

/-- `Array.prototype.remove`:
`const index = this.indexOf(object); if(index < 0) return false;
this.splice(index, 1); return true`.  The mutation is made explicit: the
result is the returned boolean together with the array after the call. -/
def remove [DecidableEq α] (l : List α) (object : α) : Bool × List α :=
  let index := jsIndexOf l object
  if index < 0 then (false, l)
  else (true, l.eraseIdx index.toNat)

/-- `Array.prototype.windowed`, loop body: whenever the current window has
reached `size` elements it is flushed to the result and a fresh window is
started; each element is then pushed onto the current window.  After the
loop the final window is pushed unconditionally. -/
def windowedAux (size : ℚ) (window : List α) : List α → List (List α)
  | [] => [window]
  | a :: rest =>
      if (window.length : ℚ) = size then window :: windowedAux size [a] rest
      else windowedAux size (window ++ [a]) rest

/-- `Array.prototype.windowed(size)`: starts from an empty window and runs
the loop over the whole array. -/
def windowed (l : List α) (size : ℚ) : List (List α) :=
  windowedAux size [] l

/-- JS `Array.prototype.join(sep)` on an array of strings: the elements in
order with `sep` between consecutive elements.  `Array(n)` produces `n`
empty slots, each of which stringifies to the empty string, so
`Array(n).join(sep)` is `n - 1` copies of `sep` (and the empty string for
`n ≤ 1`). -/
def joinWith (sep : JsString) : List JsString → JsString
  | [] => []
  | [x] => x
  | x :: y :: xs => x ++ sep ++ joinWith sep (y :: xs)

/-- `String.prototype.repeat`:
`if(count < 1 || !Number.isInteger(count)) return ""; return Array(count).join(this)`.
`Array(count)` is a list of `count` empty slots. -/
def jsRepeat (s : JsString) (count : ℚ) : JsString :=
  if count < 1 ∨ ¬ isInteger count then []
  else joinWith s (List.replicate count.num.toNat [])

/-- `Number.prototype.toPaddedString`:
`const result = this.toString(); return "0".repeat(count - result.length) + result`.
The receiver is embedded as an integer (`Number.prototype.toString` with no
radix prints the decimal representation). -/
def toPaddedString (v : ℤ) (count : ℚ) : JsString :=
  let result := (toString v).data
  jsRepeat ['0'] (count - (result.length : ℚ)) ++ result

/-- JS `String.prototype.split` with a non-empty literal separator, scanning
left to right and cutting at each leftmost non-overlapping occurrence.  The
`fuel` argument makes the recursion structural; each cut consumes at least
one character, so `fuel = s.length` steps always suffice. -/
def splitGo (sep : JsString) : ℕ → JsString → List JsString
  | _, [] => [[]]
  | 0, s => [s]
  | fuel + 1, c :: rest =>
      if sep.isPrefixOf (c :: rest) then
        [] :: splitGo sep fuel (rest.drop (sep.length - 1))
      else
        match splitGo sep fuel rest with
        | [] => [[c]]
        | h :: t => (c :: h) :: t

/-- JS `String.prototype.split(separator)` for a literal string separator:
with the empty separator the string splits into its individual characters
(`"".split("") == []`); otherwise it splits at each occurrence of the
separator (`"".split(sep) == [""]`). -/
def jsSplit (s sep : JsString) : List JsString :=
  if sep = [] then s.map (fun c => [c])
  else splitGo sep s.length s

/-- `String.prototype.splitPopulated`:
`const result = this.split(delimiter); if(result.length == 1 && result[0] == "") return []; return result`. -/
def splitPopulated (s delimiter : JsString) : List JsString :=
  let result := jsSplit s delimiter
  if result.length = 1 ∧ result.headI = [] then [] else result

/-!
## HashMap

`class HashMap<T> { data: {[key: string]: T} = {} ... }` stores its entries
as own properties of a plain JS object literal.  The embedding keeps the own
enumerable string-keyed properties as an association list in insertion
order, and models the two ways the object substrate leaks through:

* assigning `data["__proto__"] = value` invokes the inherited `__proto__`
  accessor instead of creating an own property, so `put` leaves the own
  properties unchanged for that key;
* `containsKey`/`remove` call `this.data.hasOwnProperty(key)`; once an own
  property named `"hasOwnProperty"` exists it shadows
  `Object.prototype.hasOwnProperty` with a stored (non-callable) value and
  the call raises a `TypeError`, modelled as `none`;
* reading `data[key]` for an absent `key` yields `undefined` unless `key`
  names an inherited `Object.prototype` member, in which case the inherited
  member (not a stored value) is produced.
-/

/-- The own enumerable properties of the backing object of a `HashMap`, in
insertion order. -/
structure HashMap (V : Type) where
  data : List (String × V)

/-- The inherited member names of `Object.prototype` visible on the plain
object literal backing `HashMap.data`. -/
def objectProtoKeys : List String :=
  ["hasOwnProperty", "toString", "valueOf", "toLocaleString", "constructor",
   "isPrototypeOf", "propertyIsEnumerable", "__proto__", "__defineGetter__",
   "__defineSetter__", "__lookupGetter__", "__lookupSetter__"]

/-- Result of the property read `this.data[key]`: a stored value, an
inherited `Object.prototype` member, or `undefined`. -/
inductive GetResult (V : Type) where
  | val (v : V)
  | inherited
  | jsUndefined

/-- Whether `key` is an own property of the backing object. -/
def HashMap.owns (m : HashMap V) (key : String) : Bool :=
  m.data.any (fun p => p.1 == key)

/-- `HashMap.clear`: `this.data = {}`. -/
def HashMap.clear (_m : HashMap V) : HashMap V :=
  ⟨[]⟩

/-- `HashMap.containsKey`: `return this.data.hasOwnProperty(key)`.  When an
own property shadows `hasOwnProperty` the stored value is called and a
`TypeError` is raised (`none`). -/
def HashMap.containsKey (m : HashMap V) (key : String) : Option Bool :=
  if m.owns "hasOwnProperty" then none
  else some (m.owns key)

/-- `HashMap.get`: `return this.data[key]`. -/
def HashMap.get (m : HashMap V) (key : String) : GetResult V :=
  match m.data.find? (fun p => p.1 == key) with
  | some p => .val p.2
  | none => if key ∈ objectProtoKeys then .inherited else .jsUndefined

/-- `HashMap.put`: `this.data[key] = value`.  Assigning to `"__proto__"`
triggers the inherited accessor and creates no own property; otherwise the
assignment overwrites an existing own property in place or appends a new
one. -/
def HashMap.put (m : HashMap V) (key : String) (value : V) : HashMap V :=
  if key = "__proto__" then m
  else if m.owns key then ⟨m.data.map (fun p => if p.1 == key then (key, value) else p)⟩
  else ⟨m.data ++ [(key, value)]⟩

/-- `HashMap.remove`:
`if(!this.data.hasOwnProperty(key)) return false; delete this.data[key]; return true`.
The explicit-state result pairs the returned boolean with the map after the
call; `none` is the `TypeError` raised when `hasOwnProperty` is shadowed. -/
def HashMap.remove (m : HashMap V) (key : String) : Option (Bool × HashMap V) :=
  if m.owns "hasOwnProperty" then none
  else if ¬ m.owns key then some (false, m)
  else some (true, ⟨m.data.filter (fun p => ! (p.1 == key))⟩)

/-!
## Helper lemmas
-/

theorem windowedAux_join (size : ℚ) (l w : List α) :
    (windowedAux size w l).join = w ++ l := by
  induction l generalizing w with
  | nil => simp [windowedAux]
  | cons a rest ih =>
      simp only [windowedAux]
      split
      · simp [ih]
      · simp [ih]

theorem windowedAux_ne_nil (size : ℚ) (l w : List α) :
    windowedAux size w l ≠ [] := by
  induction l generalizing w with
  | nil => simp [windowedAux]
  | cons a rest ih =>
      simp only [windowedAux]
      split
      · simp
      · exact ih (w ++ [a])

theorem windowedAux_dropLast (size : ℕ) (hs : 0 < size) (l : List α) :
    ∀ w : List α, w.length ≤ size →
      ∀ c ∈ (windowedAux (size : ℚ) w l).dropLast, c.length = size := by
  induction l with
  | nil =>
      intro w _ c hc
      simp [windowedAux] at hc
  | cons a rest ih =>
      intro w hw c hc
      simp only [windowedAux] at hc
      by_cases h : (w.length : ℚ) = (size : ℚ)
      · rw [if_pos h] at hc
        have hwlen : w.length = size := by exact_mod_cast h
        obtain ⟨b, t, hbt⟩ := List.exists_cons_of_ne_nil (windowedAux_ne_nil (size : ℚ) rest [a])
        rw [hbt, List.dropLast_cons₂] at hc
        rcases List.mem_cons.mp hc with rfl | hc2
        · exact hwlen
        · exact ih [a] (by simpa using hs) c (by rw [hbt]; exact hc2)
      · rw [if_neg h] at hc
        have hne : w.length ≠ size := fun hh => h (by exact_mod_cast hh)
        exact ih (w ++ [a]) (by simp; omega) c hc

theorem windowedAux_chunk_bounds (size : ℕ) (hs : 0 < size) (l : List α) :
    ∀ w : List α, w ≠ [] → w.length ≤ size →
      ∀ c ∈ windowedAux (size : ℚ) w l, c ≠ [] ∧ c.length ≤ size := by
  induction l with
  | nil =>
      intro w hw hlen c hc
      simp only [windowedAux, List.mem_singleton] at hc
      exact hc ▸ ⟨hw, hlen⟩
  | cons a rest ih =>
      intro w hw hlen c hc
      simp only [windowedAux] at hc
      by_cases h : (w.length : ℚ) = (size : ℚ)
      · rw [if_pos h] at hc
        rcases List.mem_cons.mp hc with rfl | hc2
        · exact ⟨hw, hlen⟩
        · exact ih [a] (by simp) (by simpa using hs) c hc2
      · rw [if_neg h] at hc
        have hne : w.length ≠ size := fun hh => h (by exact_mod_cast hh)
        exact ih (w ++ [a]) (by simp) (by simp; omega) c hc

theorem partition_eq_filter (S : List α) (p : α → Bool) :
    partition S p = (S.filter p, S.filter (fun a => ! p a)) := by
  induction S with
  | nil => rfl
  | cons a rest ih =>
      simp only [partition, ih]
      cases hp : p a <;> simp [hp, List.filter_cons]

theorem partitionCalls_eq (S : List α) (p : α → Bool) :
    partitionCalls S p = (partition S p, S.length) := by
  induction S with
  | nil => rfl
  | cons a rest ih =>
      simp only [partitionCalls, partition, ih]
      cases hp : p a <;> simp [hp]

theorem length_filter_add_length_filter_not (S : List α) (p : α → Bool) :
    (S.filter p).length + (S.filter (fun a => ! p a)).length = S.length := by
  induction S with
  | nil => rfl
  | cons a rest ih =>
      cases hp : p a <;> simp [List.filter_cons, hp] <;> omega

/-!
## Claims
-/

/-- C4: for every sequence `S` and every number `n` that is below 1 (which
covers `n ≤ 0`) or non-integer, both `take(S, n)` and `drop(S, n)` return
the empty sequence; and when `n` is an integer exceeding the length of `S`
neither errors: `take` returns all available elements and `drop` returns
the empty sequence. -/
theorem take_drop_guard (S : List α) (n : ℚ) :
    (n < 1 ∨ isInteger n = false → take S n = [] ∧ drop S n = []) ∧
    (isInteger n = true → (S.length : ℚ) < n → take S n = S ∧ drop S n = []) := by
  constructor
  · intro h
    have h' : n < 1 ∨ ¬ isInteger n := by
      rcases h with h | h
      · exact Or.inl h
      · exact Or.inr (by simp [h])
    simp only [take, drop]
    rw [if_pos h', if_pos h']
    exact ⟨rfl, rfl⟩
  · intro hint hlen
    have hden : n.den = 1 := by simpa [isInteger] using hint
    have hnum : (n.num : ℚ) = n := (Rat.den_eq_one_iff n).mp hden
    have hlt : (S.length : ℤ) < n.num := by
      rw [← hnum] at hlen
      exact_mod_cast hlen
    have hlt2 : S.length < n.num.toNat := by omega
    have hge1 : (1 : ℚ) ≤ n := by
      rw [← hnum]
      have : (1 : ℤ) ≤ n.num := by omega
      exact_mod_cast this
    have hguard : ¬ (n < 1 ∨ ¬ isInteger n) := by
      rintro (h | h)
      · exact absurd hge1 (not_le.mpr h)
      · exact h hint
    rw [take, drop, if_neg hguard, if_neg hguard]
    exact ⟨List.take_of_length_le (le_of_lt hlt2), List.drop_eq_nil_of_le (le_of_lt hlt2)⟩

/-- C4 witness: concrete instances of both guarded behaviors. -/
theorem take_drop_guard_witness :
    (take [1, 2, 3] (-1 : ℚ) = [] ∧ drop [1, 2, 3] (-1 : ℚ) = []) ∧
    (take [1, 2] (5 : ℚ) = [1, 2] ∧ drop [1, 2] (5 : ℚ) = []) :=
  ⟨(take_drop_guard [1, 2, 3] (-1)).1 (Or.inl (by decide)),
   (take_drop_guard [1, 2] 5).2 (by decide) (by decide)⟩

/-- C5: for every sequence `S` and positive integer `k ≤ length(S)`,
`take(S, k) ++ drop(S, k) = S`. -/
theorem take_append_drop_eq (S : List α) (k : ℕ) (h1 : 1 ≤ k) (h2 : k ≤ S.length) :
    take S (k : ℚ) ++ drop S (k : ℚ) = S := by
  have hguard : ¬ ((k : ℚ) < 1 ∨ ¬ isInteger (k : ℚ)) := by
    rintro (h | h)
    · have hk : (1 : ℚ) ≤ (k : ℚ) := by exact_mod_cast h1
      exact absurd hk (not_le.mpr h)
    · exact h (by simp [isInteger])
  have hnum : ((k : ℚ)).num.toNat = k := by simp
  rw [take, drop, if_neg hguard, if_neg hguard, hnum]
  exact List.take_append_drop k S

/-- C5 witness: `take([1,2,3], 2) ++ drop([1,2,3], 2) = [1,2,3]`. -/
theorem take_append_drop_eq_witness :
    1 ≤ 2 ∧ 2 ≤ [1, 2, 3].length ∧ take [1, 2, 3] ((2 : ℕ) : ℚ) ++ drop [1, 2, 3] ((2 : ℕ) : ℚ) = [1, 2, 3] :=
  ⟨by decide, by decide, take_append_drop_eq [1, 2, 3] 2 (by decide) (by decide)⟩

/-- C6: `partition(S, p)` returns the elements satisfying `p` (in original
relative order) paired with the rest (in original relative order), the two
lengths sum to the length of `S`, and the instrumented run shows the
predicate is invoked exactly once per element. -/
theorem partition_spec (S : List α) (p : α → Bool) :
    (partition S p).1 = S.filter p ∧
    (partition S p).2 = S.filter (fun a => ! p a) ∧
    (partition S p).1.length + (partition S p).2.length = S.length ∧
    partitionCalls S p = (partition S p, S.length) := by
  have h := partition_eq_filter S p
  refine ⟨by rw [h], by rw [h], ?_, partitionCalls_eq S p⟩
  rw [h]
  exact length_filter_add_length_filter_not S p

/-- C7: `remove(S, v)` removes the first element equal to `v` and returns
true when present; returns false leaving `S` unchanged when absent. -/
theorem remove_spec [DecidableEq α] (S : List α) (v : α) :
    (v ∈ S → remove S v = (true, S.erase v)) ∧
    (v ∉ S → remove S v = (false, S)) := by
  constructor
  · intro hv
    have hidx : jsIndexOf S v = (S.indexOf v : ℤ) := by simp [jsIndexOf, hv]
    have hpos : ¬ ((S.indexOf v : ℤ) < 0) := by omega
    simp only [remove, hidx, if_neg hpos, Int.toNat_natCast]
    rw [List.eraseIdx_indexOf_eq_erase]
  · intro hv
    have hidx : jsIndexOf S v = -1 := by simp [jsIndexOf, hv]
    simp [remove, hidx]

/-- C7 witness: `remove([1,2,3], 2)` succeeds yielding `[1,3]`, and
`remove([1,2,3], 9)` fails leaving the array unchanged. -/
theorem remove_spec_witness :
    remove [1, 2, 3] 2 = (true, [1, 3]) ∧ remove [1, 2, 3] 9 = (false, [1, 2, 3]) := by
  constructor
  · rw [(remove_spec [1, 2, 3] 2).1 (by decide)]
    decide
  · exact (remove_spec [1, 2, 3] 9).2 (by decide)

/-- C10: for every sequence `S` and every number `size` whatsoever
(positive, zero, negative or non-integer `windowed` has no guard on it),
concatenating the chunks of `windowed(S, size)` in order yields `S`. -/
theorem windowed_join_eq (S : List α) (size : ℚ) :
    (windowed S size).join = S := by
  simpa using windowedAux_join size S []

/-- C3 counterexample: a non-empty input whose length is an exact multiple
of `size` produces no trailing empty chunk — `windowed([1,2,3,4], 2)` is
`[[1,2],[3,4]]`, not `[[1,2],[3,4],[]]`. -/
theorem windowed_exact_multiple_counterexample :
    windowed [1, 2, 3, 4] ((2 : ℕ) : ℚ) = [[1, 2], [3, 4]] ∧
    windowed [1, 2, 3, 4] ((2 : ℕ) : ℚ) ≠ [[1, 2], [3, 4], []] := by
  decide

/-- C3 (amended): for every sequence `S` and positive integer `size`,
`windowed(S, size)` partitions `S` into consecutive chunks of exactly
`size` elements except the final chunk which holds the remainder (so
`windowed([1,2,3,4,5], 2) = [[1,2],[3,4],[5]]`, certified by the witness);
when the length of `S` is an exact non-zero multiple of `size` the final
chunk has exactly `size` elements and there is no trailing empty chunk: an
empty chunk occurs only when `S` itself is empty, in which case the result
is one empty chunk. -/
theorem windowed_chunks_spec (S : List α) (size : ℕ) (hs : 0 < size) :
    (windowed S (size : ℚ)).join = S ∧
    (∀ c ∈ (windowed S (size : ℚ)).dropLast, c.length = size) ∧
    (S = [] → windowed S (size : ℚ) = [[]]) ∧
    (S ≠ [] → ∀ c ∈ windowed S (size : ℚ), c ≠ [] ∧ c.length ≤ size) := by
  refine ⟨by simpa using windowedAux_join (size : ℚ) S [],
          windowedAux_dropLast size hs S [] (by simp), ?_, ?_⟩
  · intro h
    subst h
    rfl
  · intro hS c hc
    obtain ⟨a, rest, rfl⟩ := List.exists_cons_of_ne_nil hS
    have hcond : ¬ (((([] : List α).length : ℚ)) = (size : ℚ)) := by
      simp only [List.length_nil, Nat.cast_zero]
      exact_mod_cast hs.ne
    simp only [windowed, windowedAux] at hc
    rw [if_neg hcond] at hc
    exact windowedAux_chunk_bounds size hs rest [a] (by simp) (by simpa using hs) c hc

/-- C3 witness: the amended statement at the spec's own example
`windowed([1,2,3,4,5], 2)`. -/
theorem windowed_chunks_spec_witness :
    windowed [1, 2, 3, 4, 5] ((2 : ℕ) : ℚ) = [[1, 2], [3, 4], [5]] ∧
    ((windowed [1, 2, 3, 4, 5] ((2 : ℕ) : ℚ)).join = [1, 2, 3, 4, 5] ∧
     (∀ c ∈ (windowed [1, 2, 3, 4, 5] ((2 : ℕ) : ℚ)).dropLast, c.length = 2) ∧
     ([1, 2, 3, 4, 5] = ([] : List ℕ) → windowed [1, 2, 3, 4, 5] ((2 : ℕ) : ℚ) = [[]]) ∧
     ([1, 2, 3, 4, 5] ≠ ([] : List ℕ) →
       ∀ c ∈ windowed [1, 2, 3, 4, 5] ((2 : ℕ) : ℚ), c ≠ [] ∧ c.length ≤ 2)) :=
  ⟨by decide, windowed_chunks_spec [1, 2, 3, 4, 5] 2 (by decide)⟩

theorem splitGo_ne_nil (sep : JsString) (fuel : ℕ) (s : JsString) :
    splitGo sep fuel s ≠ [] := by
  cases s with
  | nil => cases fuel <;> simp [splitGo]
  | cons c rest =>
      cases fuel with
      | zero => simp [splitGo]
      | succ f =>
          simp only [splitGo]
          split
          · simp
          · split <;> simp

theorem splitGo_cons_ne_singleton (sep : JsString) (fuel : ℕ) (c : Char) (rest : JsString) :
    splitGo sep (fuel + 1) (c :: rest) ≠ [[]] := by
  simp only [splitGo]
  split
  · intro h
    have hne := splitGo_ne_nil sep fuel (rest.drop (sep.length - 1))
    simp only [List.cons.injEq] at h
    exact hne h.2
  · split
    · simp
    · simp

theorem length_one_headI_nil (X : List JsString) (h1 : X.length = 1) (h2 : X.headI = []) :
    X = [[]] := by
  obtain ⟨x, rfl⟩ := List.length_eq_one.mp h1
  simp only [List.headI] at h2
  rw [h2]

/-- C8: `splitPopulated(s, d)` returns the empty sequence when `s` is
empty for every delimiter `d`, and on a non-empty `s` it returns every
fragment of the underlying split (empty intermediate fragments included);
in particular `splitPopulated("", ",") = []` and
`splitPopulated("a,,b", ",") = ["a", "", "b"]`. -/
theorem splitPopulated_spec :
    (∀ d : JsString, splitPopulated [] d = []) ∧
    (∀ (s d : JsString), s ≠ [] → splitPopulated s d = jsSplit s d) ∧
    splitPopulated "a,,b".data ",".data = ["a".data, "".data, "b".data] ∧
    splitPopulated "".data ",".data = [] := by
  refine ⟨?_, ?_, by decide, by decide⟩
  · intro d
    by_cases hd : d = []
    · subst hd
      rfl
    · simp [splitPopulated, jsSplit, hd, splitGo]
  · intro s d hs
    obtain ⟨c, rest, rfl⟩ := List.exists_cons_of_ne_nil hs
    have hne : jsSplit (c :: rest) d ≠ [[]] := by
      by_cases hd : d = []
      · subst hd
        simp [jsSplit]
      · simp only [jsSplit, if_neg hd, List.length_cons]
        exact splitGo_cons_ne_singleton d rest.length c rest
    have hguard : ¬ ((jsSplit (c :: rest) d).length = 1 ∧ (jsSplit (c :: rest) d).headI = []) :=
      fun hh => hne (length_one_headI_nil _ hh.1 hh.2)
    simp only [splitPopulated]
    rw [if_neg hguard]

/-- C8 witness: the non-empty branch applied at `splitPopulated("x", ",")`. -/
theorem splitPopulated_spec_witness :
    "x".data ≠ [] ∧ splitPopulated "x".data ",".data = jsSplit "x".data ",".data :=
  ⟨by decide, splitPopulated_spec.2.1 "x".data ",".data (by decide)⟩

theorem owns_eq_true_iff {V : Type} (m : HashMap V) (key : String) :
    m.owns key = true ↔ ∃ p ∈ m.data, p.1 = key := by
  simp [HashMap.owns, List.any_eq_true]

theorem owns_eq_false_iff {V : Type} (m : HashMap V) (key : String) :
    m.owns key = false ↔ ∀ p ∈ m.data, p.1 ≠ key := by
  simp [HashMap.owns, List.any_eq_false]

theorem owns_put_preserve_false {V : Type} (m : HashMap V) (k k2 : String) (v : V)
    (hk : k ≠ "__proto__") (hkk2 : k ≠ k2) (hm : m.owns k2 = false) :
    (m.put k v).owns k2 = false := by
  simp only [HashMap.put, if_neg hk]
  by_cases ho : m.owns k = true
  · rw [if_pos ho, owns_eq_false_iff]
    intro p hp
    obtain ⟨q, hq, rfl⟩ := List.mem_map.mp hp
    by_cases hqk : q.1 = k
    · rw [if_pos (by simpa using hqk)]
      exact hkk2
    · rw [if_neg (by simpa using hqk)]
      exact (owns_eq_false_iff m k2).mp hm q hq
  · rw [if_neg ho, owns_eq_false_iff]
    intro p hp
    rcases List.mem_append.mp hp with hmem | hmem
    · exact (owns_eq_false_iff m k2).mp hm p hmem
    · rw [List.mem_singleton.mp hmem]
      exact hkk2

theorem owns_put_self {V : Type} (m : HashMap V) (k : String) (v : V)
    (hk : k ≠ "__proto__") :
    (m.put k v).owns k = true := by
  simp only [HashMap.put, if_neg hk]
  by_cases ho : m.owns k = true
  · rw [if_pos ho, owns_eq_true_iff]
    obtain ⟨q, hq, hqk⟩ := (owns_eq_true_iff m k).mp ho
    exact ⟨(k, v), List.mem_map.mpr ⟨q, hq, by rw [if_pos (by simpa using hqk)]⟩, rfl⟩
  · rw [if_neg ho, owns_eq_true_iff]
    exact ⟨(k, v), by simp, rfl⟩

theorem find?_map_replace {V : Type} (data : List (String × V)) (k : String) (v : V)
    (h : ∃ q ∈ data, q.1 = k) :
    (data.map (fun p => if p.1 == k then (k, v) else p)).find? (fun p => p.1 == k) = some (k, v) := by
  induction data with
  | nil => simp at h
  | cons q rest ih =>
      simp only [List.map_cons]
      by_cases hq : q.1 = k
      · rw [if_pos (by simpa using hq)]
        rw [List.find?_cons_of_pos _ (by simp)]
      · rw [if_neg (by simpa using hq)]
        rw [List.find?_cons_of_neg _ (by simpa using hq)]
        refine ih ?_
        rcases h with ⟨p, hp, hpk⟩
        rcases List.mem_cons.mp hp with rfl | hmem
        · exact absurd hpk hq
        · exact ⟨p, hmem, hpk⟩

theorem find?_append_new {V : Type} (data : List (String × V)) (k : String) (v : V)
    (h : ∀ q ∈ data, q.1 ≠ k) :
    (data ++ [(k, v)]).find? (fun p => p.1 == k) = some (k, v) := by
  induction data with
  | nil => simp [List.find?]
  | cons q rest ih =>
      have hq : q.1 ≠ k := h q (by simp)
      rw [List.cons_append, List.find?_cons_of_neg _ (by simpa using hq)]
      exact ih (fun p hp => h p (by simp [hp]))

theorem get_put_self {V : Type} (m : HashMap V) (k : String) (v : V)
    (hk : k ≠ "__proto__") :
    (m.put k v).get k = GetResult.val v := by
  simp only [HashMap.get, HashMap.put, if_neg hk]
  by_cases ho : m.owns k = true
  · rw [if_pos ho]
    have hfind := find?_map_replace m.data k v ((owns_eq_true_iff m k).mp ho)
    simp only [hfind]
  · rw [if_neg ho]
    have hall : ∀ q ∈ m.data, q.1 ≠ k :=
      (owns_eq_false_iff m k).mp (by simpa using ho)
    have hfind := find?_append_new m.data k v hall
    simp only [hfind]

theorem remove_present {V : Type} (m : HashMap V) (k : String)
    (hm : m.owns "hasOwnProperty" = false) (ho : m.owns k = true) :
    m.remove k = some (true, ⟨m.data.filter (fun p => ! (p.1 == k))⟩) := by
  simp only [HashMap.remove]
  rw [if_neg (by simp [hm]), if_neg (by simp [ho])]

theorem remove_absent {V : Type} (m : HashMap V) (k : String)
    (hm : m.owns "hasOwnProperty" = false) (ho : m.owns k = false) :
    m.remove k = some (false, m) := by
  simp only [HashMap.remove]
  rw [if_neg (by simp [hm]), if_pos (by simp [ho])]

/-- C9 counterexample: the backing object treats `"__proto__"` specially, so
`put` creates no entry for it and `containsKey("__proto__")` stays `false`
afterwards, against the claim that it becomes `true` for every key. -/
theorem hashmap_proto_counterexample :
    ((⟨[]⟩ : HashMap ℕ).put "__proto__" 0).containsKey "__proto__" = some false ∧
    ((⟨[]⟩ : HashMap ℕ).put "__proto__" 0).containsKey "__proto__" ≠ some true := by
  decide

/-- C9 (amended): for every map `m` that does not store the key
`"hasOwnProperty"` and every key `k` other than the object-record member
names `"__proto__"` and `"hasOwnProperty"`: after `put(k, v)`,
`containsKey(k)` is `true` and `get(k)` returns `v`; `remove(k)` deletes
the entry and returns `true` when present (after which `containsKey(k)` is
`false`) and returns `false` with no mutation when absent; `clear()`
removes all entries so `containsKey` returns `false` for every key. -/
theorem hashmap_spec {V : Type} (m : HashMap V) (k : String) (v : V)
    (hk1 : k ≠ "__proto__") (hk2 : k ≠ "hasOwnProperty")
    (hm : m.owns "hasOwnProperty" = false) :
    (m.put k v).containsKey k = some true ∧
    (m.put k v).get k = GetResult.val v ∧
    (m.owns k = true → ∃ m2, m.remove k = some (true, m2) ∧ m2.containsKey k = some false) ∧
    (m.owns k = false → m.remove k = some (false, m)) ∧
    (∀ k2 : String, m.clear.containsKey k2 = some false) := by
  refine ⟨?_, get_put_self m k v hk1, ?_, fun ho => remove_absent m k hm ho, fun k2 => rfl⟩
  · have hA : (m.put k v).owns "hasOwnProperty" = false :=
      owns_put_preserve_false m k "hasOwnProperty" v hk1 hk2 hm
    have hB : (m.put k v).owns k = true := owns_put_self m k v hk1
    simp [HashMap.containsKey, hA, hB]
  · intro ho
    refine ⟨⟨m.data.filter (fun p => ! (p.1 == k))⟩, remove_present m k hm ho, ?_⟩
    have hA : (⟨m.data.filter (fun p => ! (p.1 == k))⟩ : HashMap V).owns "hasOwnProperty" = false := by
      rw [owns_eq_false_iff]
      intro p hp
      exact (owns_eq_false_iff m "hasOwnProperty").mp hm p (List.mem_filter.mp hp).1
    have hB : (⟨m.data.filter (fun p => ! (p.1 == k))⟩ : HashMap V).owns k = false := by
      rw [owns_eq_false_iff]
      intro p hp
      have := (List.mem_filter.mp hp).2
      simpa using this
    simp [HashMap.containsKey, hA, hB]

/-- C9 witness: the amended statement at a one-entry map over an ordinary
key. -/
theorem hashmap_spec_witness :
    "k" ≠ "__proto__" ∧ "k" ≠ "hasOwnProperty" ∧
    (⟨[("k", 5)]⟩ : HashMap ℕ).owns "hasOwnProperty" = false ∧
    (((⟨[("k", 5)]⟩ : HashMap ℕ).put "k" 7).containsKey "k" = some true ∧
     ((⟨[("k", 5)]⟩ : HashMap ℕ).put "k" 7).get "k" = GetResult.val 7 ∧
     ((⟨[("k", 5)]⟩ : HashMap ℕ).owns "k" = true →
       ∃ m2, (⟨[("k", 5)]⟩ : HashMap ℕ).remove "k" = some (true, m2) ∧
         m2.containsKey "k" = some false) ∧
     ((⟨[("k", 5)]⟩ : HashMap ℕ).owns "k" = false →
       (⟨[("k", 5)]⟩ : HashMap ℕ).remove "k" = some (false, ⟨[("k", 5)]⟩)) ∧
     (∀ k2 : String, (⟨[("k", 5)]⟩ : HashMap ℕ).clear.containsKey k2 = some false)) :=
  ⟨by decide, by decide, by decide,
   hashmap_spec ⟨[("k", 5)]⟩ "k" 7 (by decide) (by decide) (by decide)⟩

/-- C1 (code bug): the claim demands exactly `count` copies for a positive
integer `count`, but `Array(count).join(this)` joins `count` empty slots
with the receiver as separator, yielding only `count - 1` copies:
`repeat("ab", 2)` evaluates to `"ab"` instead of `"abab"`. -/
theorem repeat_count_copies_bug :
    jsRepeat "ab".data 2 = "ab".data ∧ jsRepeat "ab".data 2 ≠ "abab".data := by
  decide

/-- C2 (code bug): `toPaddedString` pads with `"0".repeat(count - length)`
and inherits the off-by-one of `repeat`, so `toPaddedString(7, 3)`
evaluates to `"07"` (length 2 < 3) instead of the claimed `"007"`; the
no-truncation side `toPaddedString(1234, 2) = "1234"` does hold. -/
theorem toPaddedString_pad_bug :
    toPaddedString 7 3 = "07".data ∧ toPaddedString 7 3 ≠ "007".data ∧
    toPaddedString 1234 2 = "1234".data := by
  have h7 : (toString (7 : ℤ)).data = ['7'] := by decide
  have harg7 : (3 : ℚ) - ((['7'] : List Char).length : ℚ) = 2 := by norm_num
  have h1234 : (toString (1234 : ℤ)).data = ['1', '2', '3', '4'] := by decide
  have harg1234 : (2 : ℚ) - ((['1', '2', '3', '4'] : List Char).length : ℚ) = -2 := by norm_num
  refine ⟨?_, ?_, ?_⟩
  · simp only [toPaddedString, h7, harg7]
    decide
  · simp only [toPaddedString, h7, harg7]
    decide
  · simp only [toPaddedString, h1234, harg1234]
    decide

end TsLib
